import Mathlib

/-!
Shallow embedding of `source/depletion_chain.py` (module `DepletionChain`).

Modelling conventions:
* Numeric attribute values parsed by Python's `float(...)`/`int(...)` are
  modelled as exact rationals / naturals (the decimal literals of the input
  are exact; floating-point rounding is idealised away, as the spec's
  "within floating-point tolerance" sanctions).
* The depletion matrix is carried as its entry function `Nat → Nat → ℝ`;
  `scipy.sparse.dok_matrix` writes become bounds-checked functional updates
  (`dok_matrix` raises `IndexError` outside its shape), and the final
  `tocsr()` conversion is entry-preserving, so it is the identity here.
* Python exceptions (`KeyError` on dict lookup, `IndexError` on list/array
  indexing, `ZeroDivisionError` on `log(2)/0.0`, `TypeError` on
  `int(None)`/`float(None)` for a missing XML attribute) are all modelled by
  `Option`: `none` means the call raises and no value is returned.
* String-valued XML attributes that the code stores without conversion
  (`name`, `target`, `type`) are modelled as the string itself; the
  pathological "attribute absent, `None` stored" inputs are outside the
  modelled input space (no claim touches them).
-/

namespace OpenDeplete

/-! ### Definitions: the embedded data model, loader, and assembler -/

/-- A reaction-path target as stored by the loader: either the raw `target`
attribute string, or the integer `0` that the loader records for a fission
path (`nuc.reaction_target.append(0)`). -/
inductive RTarget where
  | str (s : String)
  | zero
deriving DecidableEq, Repr

/-- The Python test `target_nuclide != 'Nothing'`, negated: the int `0` is
never equal to the string `'Nothing'`. -/
def RTarget.isNothing : RTarget → Bool
  | .str s => s == "Nothing"
  | .zero => false

/-- The fields that `xml_read` sets on a `nuclide.Nuclide` object.  Fields the
code sets only conditionally carry a default; `form_matrix` only reads them
under the same guards the Python code uses. -/
structure Nuclide where
  name : String
  n_decay_paths : Nat
  n_reaction_paths : Nat
  half_life : ℚ := 0
  decay_target : List String := []
  decay_type : List String := []
  branching_ratio : List ℚ := []
  reaction_target : List RTarget := []
  reaction_type : List String := []
  yield_ind : Nat := 0
  fission_power : ℚ := 0
deriving DecidableEq, Repr

/-- The `nuclide.Yield` object.  `fis_yield_data` is the
`np.zeros([n_fis_prod, n_energies, n_precursors])` array as an entry
function; its logical shape is the three count fields, and reads/writes are
bounds-checked against them (numpy raises `IndexError` outside). -/
structure Yield where
  n_fis_prod : Nat := 0
  n_precursors : Nat := 0
  n_energies : Nat := 0
  precursor_list : List String := []
  energy_list : List ℚ := []
  energy_dict : List (ℚ × Nat) := []
  name : List String := []
  fis_yield_data : Nat → Nat → Nat → ℚ := fun _ _ _ => 0
  fis_prod_dict : List (String × Nat) := []

/-- Bounds-checked read `yields.fis_yield_data[k, e, p]`. -/
def npRead (y : Yield) (k e p : Nat) : Option ℚ :=
  if k < y.n_fis_prod ∧ e < y.n_energies ∧ p < y.n_precursors then
    some (y.fis_yield_data k e p)
  else none

/-- The `DepletionChain` object's fields.  `OrderedDict`s are association
lists with unique keys (insertion updates in place); lookup is Python dict
lookup, `none` for `KeyError`. -/
structure DepletionChain where
  n_nuclides : Nat
  n_fp_nuclides : Nat := 0
  nuclides : List Nuclide
  nuclide_dict : List (String × Nat)
  precursor_dict : List (String × Nat) := []
  yields : Yield := {}
  reaction_list : List String := []

/-- The rates object consumed by `form_matrix`: `rates.rate` is a dict from
nuclide name to the per-reaction-path rate sequence. -/
structure ReactionRates where
  rate : List (String × List ℚ)
deriving DecidableEq, Repr

/-- Sparse matrix as entry function (row, column ↦ value). -/
def DOK : Type := Nat → Nat → ℝ

/-- The all-zero `dok_matrix((n, n))`. -/
def DOK.zero : DOK := fun _ _ => 0

/-- Write `matrix[r, c] += v`, ignoring bounds. -/
def DOK.add (m : DOK) (r c : Nat) (v : ℝ) : DOK :=
  fun r' c' => if r' = r ∧ c' = c then m r' c' + v else m r' c'

/-- Write `matrix[r, c] += v` on a `dok_matrix((n, n))`: out-of-shape indices raise
`IndexError`. -/
def dokAdd (n : Nat) (m : DOK) (r c : Nat) (v : ℝ) : Option DOK :=
  if r < n ∧ c < n then some (m.add r c v) else none

/-- Decay block of the `form_matrix` loop body (lines 191-206): if the
nuclide has decay paths, subtract `log(2)/half_life` from the diagonal and
add `branching_ratio[j] * decay_constant` into each tracked target's row.
`math.log(2)/0.0` raises `ZeroDivisionError`. -/
noncomputable def decayStep (c : DepletionChain) (i : Nat) (nuc : Nuclide)
    (m : DOK) : Option DOK :=
  if nuc.n_decay_paths ≠ 0 then
    if nuc.half_life = 0 then none
    else
      let dc : ℝ := Real.log 2 / (nuc.half_life : ℝ)
      do
      let m ← dokAdd c.n_nuclides m i i (-dc)
      (List.range nuc.n_decay_paths).foldlM (fun m j => do
        let tgt ← nuc.decay_target.get? j
        if tgt ≠ "Nothing" then do
          let k ← List.lookup tgt c.nuclide_dict
          let br ← nuc.branching_ratio.get? j
          dokAdd c.n_nuclides m k i ((br : ℝ) * dc)
        else
          pure m) m
  else
    pure m

/-- Reaction block of the `form_matrix` loop body (lines 208-232): for each
declared reaction path, look up this nuclide's rate sequence, subtract the
rate from the diagonal, and unless the target is the `'Nothing'` sentinel
add the gain — directly for a non-fission path, or spread over all fission
products weighted by the yield at the fixed energy index 0 for fission. -/
noncomputable def reactionStep (c : DepletionChain) (rates : ReactionRates)
    (i : Nat) (nuc : Nuclide) (m : DOK) : Option DOK :=
  (List.range nuc.n_reaction_paths).foldlM (fun m j => do
    let n_rates ← List.lookup nuc.name rates.rate
    let rj ← n_rates.get? j
    let m ← dokAdd c.n_nuclides m i i (-(rj : ℝ))
    let tgt ← nuc.reaction_target.get? j
    if tgt.isNothing = false then do
      let ty ← nuc.reaction_type.get? j
      if ty ≠ "fission" then do
        let k ← (match tgt with
          | .str s => List.lookup s c.nuclide_dict
          | .zero => none)
        dokAdd c.n_nuclides m k i (rj : ℝ)
      else do
        let mp ← List.lookup nuc.name c.precursor_dict
        (List.range c.yields.n_fis_prod).foldlM (fun m k => do
          let nm ← c.yields.name.get? k
          let l ← List.lookup nm c.nuclide_dict
          let y ← npRead c.yields k 0 mp
          dokAdd c.n_nuclides m l i ((y : ℝ) * (rj : ℝ))) m
    else
      pure m) m

/-- Embedding of `DepletionChain.form_matrix` (lines 177-234).  The matrix is built by
keyed additive writes starting from zero, iterating nuclides in index order;
the closing `tocsr()` is entry-preserving and hence dropped. -/
noncomputable def form_matrix (c : DepletionChain) (rates : ReactionRates) :
    Option DOK :=
  (List.range c.n_nuclides).foldlM (fun m i => do
    let nuc ← c.nuclides.get? i
    let m ← decayStep c i nuc m
    reactionStep c rates i nuc m) DOK.zero

/-- Embedding of `matrix_wrapper` (lines 248-261): the parallel per-region wrapper,
`input_tuple[0].form_matrix(input_tuple[1])`. -/
noncomputable def matrix_wrapper (t : DepletionChain × ReactionRates) :
    Option DOK :=
  form_matrix t.1 t.2

/-- The mutable environment visible to a `form_matrix` call: the `self`
object (the chain) and the `rates` object. -/
def AsmEnv : Type := DepletionChain × ReactionRates

/-- Variant of `form_matrix` with the heap made explicit: the environment is threaded
through every loop iteration, each iteration reading the chain and rates
from the threaded state and handing the state back alongside the matrix
accumulator.  Every Python statement of the body assigns only to `matrix`
or to locals, so no iteration constructs an updated environment. -/
noncomputable def form_matrixS (s : AsmEnv) : Option (DOK × AsmEnv) :=
  (List.range s.1.n_nuclides).foldlM (fun (p : DOK × AsmEnv) i => do
    let nuc ← p.2.1.nuclides.get? i
    let m ← decayStep p.2.1 i nuc p.1
    let m ← reactionStep p.2.1 p.2.2 i nuc m
    pure (m, p.2)) (DOK.zero, s)

structure DecayNode where
  target : String
  type : String
  branching_ratio : Option ℚ
deriving DecidableEq, Repr

structure ReactionNode where
  type : String
  target : String := ""
  energy : Option ℚ := none
deriving DecidableEq, Repr

structure NuclideTableNode where
  name : String
  decay_modes : Option Nat
  reactions : Option Nat
  half_life : Option ℚ := none
  decay_children : List DecayNode := []
  reaction_children : List ReactionNode := []
deriving DecidableEq, Repr

structure FissionYieldsNode where
  energy : Option ℚ
  fy_data : Option (List ℚ)
deriving DecidableEq, Repr

structure YieldTableNode where
  name : String
  fy_tables : List FissionYieldsNode := []
deriving DecidableEq, Repr

structure NFYNode where
  nuclides_count : Option Nat
  precursor_count : Option Nat
  energy_points : Option Nat
  precursor_name : Option (List String)
  energy : Option (List ℚ)
  tables : List YieldTableNode := []
deriving DecidableEq, Repr

structure RootNode where
  decay_tables : List NuclideTableNode
  nfy : NFYNode
deriving DecidableEq, Repr

/-- Python dict assignment `d[k] = v`: replace the value at an existing key
in place, otherwise append a new entry at the end. -/
def odInsert {α β : Type} [BEq α] : List (α × β) → α → β → List (α × β)
  | [], k, v => [(k, v)]
  | (k', v') :: rest, k, v =>
    if k' == k then (k, v) :: rest else (k', v') :: odInsert rest k v

/-- Index dictionaries built by enumerating a list (lines 134-145: the
`energy_dict` and `precursor_dict` loops): key `x` maps to its running
index. -/
def buildIndexDict {α : Type} [BEq α] (l : List α) : List (α × Nat) :=
  (l.foldl (fun p x => (odInsert p.1 x p.2, p.2 + 1)) ([], 0)).1

/-- Row assignment `fis_yield_data[p, e, :] = row` (line 173): numpy raises
`IndexError` for out-of-shape indices and `ValueError` when the assigned
vector's length differs from the last axis. -/
def npSetRow (y : Yield) (p e : Nat) (row : List ℚ) : Option Yield :=
  if p < y.n_fis_prod ∧ e < y.n_energies ∧ row.length = y.n_precursors then
    some { y with fis_yield_data := fun p' e' q' =>
      if p' = p ∧ e' = e then row.getD q' 0 else y.fis_yield_data p' e' q' }
  else none

/-- The chain-level state threaded through the nuclide-table loop
(lines 44-111). -/
structure LoadState where
  n_nuclides : Nat
  nuclides : List Nuclide
  nuclide_dict : List (String × Nat)
  reaction_list : List String
  nuclide_index : Nat

/-- Decay block of one nuclide-table iteration (lines 75-86): when
`decay_modes > 0`, require `half_life` and collect every `decay_type` child
in document order; `float(None)` on a missing `branching_ratio` raises. -/
def readDecayPaths (node : NuclideTableNode) (nuc : Nuclide) :
    Option Nuclide :=
  if nuc.n_decay_paths > 0 then do
    let hl ← node.half_life
    node.decay_children.foldlM (fun nuc child => do
      let br ← child.branching_ratio
      pure { nuc with
        decay_target := nuc.decay_target ++ [child.target],
        decay_type := nuc.decay_type ++ [child.type],
        branching_ratio := nuc.branching_ratio ++ [br] })
      { nuc with half_life := hl }
  else pure nuc

/-- Reaction block of one nuclide-table iteration (lines 89-108): when
`reactions > 0`, collect every `reaction_type` child, accumulate distinct
kinds into the chain's reaction list, and record either the raw target (for
non-fission) or the integer 0 plus the `energy` attribute (for fission). -/
def readReactionPaths (node : NuclideTableNode) (nuc : Nuclide)
    (rl : List String) : Option (Nuclide × List String) :=
  if nuc.n_reaction_paths > 0 then
    node.reaction_children.foldlM (fun p child => do
      let rl := if child.type ∈ p.2 then p.2 else p.2 ++ [child.type]
      let nuc := { p.1 with reaction_type := p.1.reaction_type ++ [child.type] }
      if child.type ≠ "fission" then
        pure ({ nuc with
          reaction_target := nuc.reaction_target ++ [RTarget.str child.target] }, rl)
      else do
        let en ← child.energy
        pure ({ nuc with
          reaction_target := nuc.reaction_target ++ [RTarget.zero],
          fission_power := en }, rl)) (nuc, rl)
  else pure (nuc, rl)

/-- One iteration of the nuclide-table loop (lines 59-111): read the
declared counts (`int(None)` raises when an attribute is missing), record
the name→index entry, then read the decay and reaction blocks.  Note that
the declared counts are never compared with the number of children actually
present. -/
def readNuclideTable (st : LoadState) (node : NuclideTableNode) :
    Option LoadState := do
  let ndp ← node.decay_modes
  let nrp ← node.reactions
  let nuc : Nuclide :=
    { name := node.name, n_decay_paths := ndp, n_reaction_paths := nrp,
      yield_ind := 0, fission_power := 0 }
  let dict := odInsert st.nuclide_dict node.name st.nuclide_index
  let nuc ← readDecayPaths node nuc
  let pr ← readReactionPaths node nuc st.reaction_list
  pure { n_nuclides := st.n_nuclides + 1,
         nuclides := st.nuclides ++ [pr.1],
         nuclide_dict := dict,
         reaction_list := pr.2,
         nuclide_index := st.nuclide_index + 1 }

/-- State threaded through the fission-product loop (lines 154-175). -/
structure YieldLoadState where
  yields : Yield
  nuclides : List Nuclide
  product_index : Nat

/-- One energy sub-block of a fission-product entry (lines 166-173): look
up the tabulated energy's index, note the product in `fis_prod_dict`, and
store the whitespace-split per-precursor row at the product/energy
position. -/
def fyStep (nm : String) (pidx : Nat) (yields : Yield)
    (fy : FissionYieldsNode) : Option Yield := do
  let en ← fy.energy
  let energy_index ← List.lookup en yields.energy_dict
  let yields := { yields with
    fis_prod_dict := odInsert yields.fis_prod_dict nm pidx }
  let row ← fy.fy_data
  npSetRow yields pidx energy_index row

/-- One iteration of the fission-product loop (lines 157-175): append the
product's name, resolve it in the nuclide dictionary (`KeyError` if absent,
`IndexError` if out of range), stamp its `yield_ind`, and run `fyStep` on
each `fission_yields` sub-block. -/
def readYieldTable (dict : List (String × Nat)) (st : YieldLoadState)
    (node : YieldTableNode) : Option YieldLoadState := do
  let yields0 := { st.yields with name := st.yields.name ++ [node.name] }
  let nuc_ind ← List.lookup node.name dict
  if hlt : nuc_ind < st.nuclides.length then do
    let nuclides := st.nuclides.set nuc_ind
      { st.nuclides.get ⟨nuc_ind, hlt⟩ with yield_ind := st.product_index }
    let yields ← node.fy_tables.foldlM
      (fyStep node.name st.product_index) yields0
    pure { yields := yields, nuclides := nuclides,
           product_index := st.product_index + 1 }
  else none

/-- Embedding of `DepletionChain.xml_read` (lines 30-175): the nuclide-table loop
followed by the `neutron_fission_yields` block.  `n_fp_nuclides` is set to 0
and never updated (line 46); `precursor_dict` is built by enumerating the
precursor list (lines 141-145). -/
def xml_read (root : RootNode) : Option DepletionChain := do
  let st ← root.decay_tables.foldlM readNuclideTable
    { n_nuclides := 0, nuclides := [], nuclide_dict := [],
      reaction_list := [], nuclide_index := 0 }
  let n_fis_prod ← root.nfy.nuclides_count
  let n_precursors ← root.nfy.precursor_count
  let n_energies ← root.nfy.energy_points
  let precursor_list ← root.nfy.precursor_name
  let energy_list ← root.nfy.energy
  let yst ← root.nfy.tables.foldlM (readYieldTable st.nuclide_dict)
    { yields :=
        { n_fis_prod := n_fis_prod, n_precursors := n_precursors,
          n_energies := n_energies, precursor_list := precursor_list,
          energy_list := energy_list,
          energy_dict := buildIndexDict energy_list,
          name := [], fis_yield_data := fun _ _ _ => 0, fis_prod_dict := [] },
      nuclides := st.nuclides, product_index := 0 }
  pure { n_nuclides := st.n_nuclides, n_fp_nuclides := 0,
         nuclides := yst.nuclides, nuclide_dict := st.nuclide_dict,
         precursor_dict := buildIndexDict precursor_list,
         yields := yst.yields, reaction_list := st.reaction_list }

/-- Structural well-formedness of one nuclide-table entry: every attribute
the loader converts with `int(...)`/`float(...)` is present.  Deliberately
says nothing about the declared counts matching the children present. -/
def NodeAttrsPresent (node : NuclideTableNode) : Prop :=
  node.decay_modes.isSome ∧ node.reactions.isSome ∧
    (node.decay_modes.getD 0 > 0 → node.half_life.isSome ∧
      ∀ ch ∈ node.decay_children, ch.branching_ratio.isSome) ∧
    (node.reactions.getD 0 > 0 →
      ∀ ch ∈ node.reaction_children, ch.type = "fission" → ch.energy.isSome)

instance : DecidablePred NodeAttrsPresent := fun node => by
  unfold NodeAttrsPresent
  infer_instance

/-- A chain description in which nuclide X declares `decay_modes="2"` but
carries only one decay child. -/
def nodeMismatch : NuclideTableNode :=
  { name := "X", decay_modes := some 2, reactions := some 0,
    half_life := some 10,
    decay_children :=
      [{ target := "Nothing", type := "beta", branching_ratio := some 1 }] }

/-- A well-formed but empty `neutron_fission_yields` block. -/
def nfyTrivial : NFYNode :=
  { nuclides_count := some 0, precursor_count := some 0,
    energy_points := some 0, precursor_name := some [], energy := some [],
    tables := [] }

/-- The count-mismatch description used against claim C5. -/
def rootMismatch : RootNode :=
  { decay_tables := [nodeMismatch], nfy := nfyTrivial }

/-- A two-nuclide description with distinct names, used as the C9 witness
input. -/
def rootTwo : RootNode :=
  { decay_tables :=
      [{ name := "Y1", decay_modes := some 0, reactions := some 0 },
       { name := "Y2", decay_modes := some 0, reactions := some 0 }],
    nfy := nfyTrivial }

/-- Column sum over the matrix's `n` rows. -/
noncomputable def colSum (M : DOK) (n i : Nat) : ℝ :=
  ∑ k ∈ Finset.range n, M k i

/-- The total loss rate of a nuclide: its decay constant (zero when it has
no decay paths) plus the sum of its supplied reaction rates, one per
declared reaction path. -/
noncomputable def totalLoss (nuc : Nuclide) (lst : List ℚ) : ℝ :=
  (if nuc.n_decay_paths ≠ 0 then Real.log 2 / (nuc.half_life : ℝ) else 0)
    + ∑ j ∈ Finset.range nuc.n_reaction_paths, ((lst.getD j 0 : ℚ) : ℝ)

/-- Nuclide A of the two-nuclide scenario: half-life 10 s, one decay path to
B with branching ratio 1.0, no reaction paths. -/
def nucA : Nuclide :=
  { name := "A", n_decay_paths := 1, n_reaction_paths := 0,
    half_life := 10, decay_target := ["B"], decay_type := ["beta"],
    branching_ratio := [1] }

/-- Nuclide B of the two-nuclide scenario: stable, one capture reaction path
to the `'Nothing'` sentinel. -/
def nucB : Nuclide :=
  { name := "B", n_decay_paths := 0, n_reaction_paths := 1,
    reaction_target := [.str "Nothing"], reaction_type := ["capture"] }

/-- The two-nuclide chain `[A, B]`. -/
def chainAB : DepletionChain :=
  { n_nuclides := 2, nuclides := [nucA, nucB],
    nuclide_dict := [("A", 0), ("B", 1)] }

/-- Rates for the two-nuclide scenario: B's capture path proceeds at
0.01 / s. -/
def ratesAB : ReactionRates := { rate := [("A", []), ("B", [1/100])] }

/-- Fissile nuclide F: no decay paths, a single fission reaction path (the
loader records the integer 0 as its target). -/
def nucF : Nuclide :=
  { name := "F", n_decay_paths := 0, n_reaction_paths := 1,
    reaction_target := [.zero], reaction_type := ["fission"],
    fission_power := 200 }

/-- Fission product P: stable, no reaction paths, sole entry of the yield
table. -/
def nucP : Nuclide :=
  { name := "P", n_decay_paths := 0, n_reaction_paths := 0 }

/-- Yield table for the fission scenario: one product P, one precursor F,
two tabulated energy points whose yield fractions differ (0.9 at index 0,
0.5 at index 1). -/
def yieldFP : Yield :=
  { n_fis_prod := 1, n_precursors := 1, n_energies := 2,
    precursor_list := ["F"], energy_list := [1/40, 500000],
    energy_dict := [(1/40, 0), (500000, 1)], name := ["P"],
    fis_yield_data := fun k e p =>
      if k = 0 ∧ e = 0 ∧ p = 0 then 9/10
      else if k = 0 ∧ e = 1 ∧ p = 0 then 1/2
      else 0,
    fis_prod_dict := [("P", 0)] }

/-- The two-nuclide fission chain `[F, P]`. -/
def chainFP : DepletionChain :=
  { n_nuclides := 2, nuclides := [nucF, nucP],
    nuclide_dict := [("F", 0), ("P", 1)],
    precursor_dict := [("F", 0)], yields := yieldFP }

/-- Rates for the fission scenario: F's fission path proceeds at rate `r`. -/
def ratesFP (r : ℚ) : ReactionRates := { rate := [("F", [r])] }

/-- Parent nuclide for the C1 witness chain: decays to D with branching
ratio 1. -/
def nucPar : Nuclide :=
  { name := "Par", n_decay_paths := 1, n_reaction_paths := 0,
    half_life := 10, decay_target := ["D"], decay_type := ["beta"],
    branching_ratio := [1] }

/-- Daughter nuclide for the C1 witness chain: stable, one capture reaction
path back to Par. -/
def nucD : Nuclide :=
  { name := "D", n_decay_paths := 0, n_reaction_paths := 1,
    reaction_target := [.str "Par"], reaction_type := ["capture"] }

/-- The two-nuclide witness chain `[Par, D]`. -/
def chainParD : DepletionChain :=
  { n_nuclides := 2, nuclides := [nucPar, nucD],
    nuclide_dict := [("Par", 0), ("D", 1)] }

/-- Rates for the C1 witness chain: D captures at 0.01/s. -/
def ratesParD : ReactionRates := { rate := [("D", [1/100])] }

/-- Single-nuclide chain used to refute the "too long fails" half of C4:
C declares exactly one reaction path (a capture to the `'Nothing'`
sentinel). -/
def nucC : Nuclide :=
  { name := "C", n_decay_paths := 0, n_reaction_paths := 1,
    reaction_target := [.str "Nothing"], reaction_type := ["capture"] }

/-- The one-nuclide chain `[C]`. -/
def chainC : DepletionChain :=
  { n_nuclides := 1, nuclides := [nucC], nuclide_dict := [("C", 0)] }

/-- A rate sequence for C of length 2, longer than its declared single
reaction path. -/
def ratesC : ReactionRates := { rate := [("C", [1/100, 5])] }

/-- The single stable nuclide used to refute C6's "diagonal entries are
negative ... including for a stable nuclide with no reaction paths". -/
def nucS : Nuclide := { name := "S", n_decay_paths := 0, n_reaction_paths := 0 }

/-- The one-nuclide chain `[S]`. -/
def chainS : DepletionChain :=
  { n_nuclides := 1, nuclides := [nucS], nuclide_dict := [("S", 0)] }

/-! ### Theorems -/

/-- A predicate preserved by every successful step of an `Option` fold holds
of a successful fold's result. -/
theorem foldlM_option_invariant {α β : Type} (P : β → Prop)
    (f : β → α → Option β) (l : List α) (b B : β)
    (h : l.foldlM f b = some B) (hb : P b)
    (hstep : ∀ x b₁ b₂, x ∈ l → f b₁ x = some b₂ → P b₁ → P b₂) : P B := by
  induction l generalizing b with
  | nil =>
    simp only [List.foldlM_nil] at h
    cases h
    exact hb
  | cons a t ih =>
    rw [List.foldlM_cons] at h
    cases hfa : f b a with
    | none => rw [hfa] at h; cases h
    | some b' =>
      rw [hfa] at h
      exact ih b' h (hstep a b b' (List.mem_cons_self a t) hfa hb)
        (fun x b₁ b₂ hx => hstep x b₁ b₂ (List.mem_cons_of_mem a hx))

/-- If an `Option` fold succeeds, every list element was stepped over
successfully from some intermediate accumulator. -/
theorem foldlM_option_mem_step {α β : Type}
    (f : β → α → Option β) (l : List α) (b B : β)
    (h : l.foldlM f b = some B) (x : α) (hx : x ∈ l) :
    ∃ b₁ b₂, f b₁ x = some b₂ := by
  induction l generalizing b with
  | nil => cases hx
  | cons a t ih =>
    rw [List.foldlM_cons] at h
    cases hfa : f b a with
    | none => rw [hfa] at h; cases h
    | some b' =>
      rw [hfa] at h
      rcases List.mem_cons.mp hx with rfl | hx'
      · exact ⟨b, b', hfa⟩
      · exact ih b' h hx'

/-- If each successful step changes a real-valued measure of the accumulator
by an amount depending only on the list element, a successful fold changes it
by the sum of those amounts. -/
theorem foldlM_option_measure {α β : Type} (μ : β → ℝ) (g : α → ℝ)
    (f : β → α → Option β) (l : List α) (b B : β)
    (h : l.foldlM f b = some B)
    (hstep : ∀ x b₁ b₂, x ∈ l → f b₁ x = some b₂ → μ b₂ = μ b₁ + g x) :
    μ B = μ b + (l.map g).sum := by
  induction l generalizing b with
  | nil =>
    simp only [List.foldlM_nil] at h
    cases h
    simp
  | cons a t ih =>
    rw [List.foldlM_cons] at h
    cases hfa : f b a with
    | none => rw [hfa] at h; cases h
    | some b' =>
      rw [hfa] at h
      have h1 := hstep a b b' (List.mem_cons_self a t) hfa
      have h2 := ih b' h (fun x b₁ b₂ hx => hstep x b₁ b₂ (List.mem_cons_of_mem a hx))
      rw [h2, h1]
      simp [List.sum_cons]
      ring

/-- Sum of a function mapped over `List.range` as a `Finset.range` sum. -/
theorem sum_map_range (g : Nat → ℝ) (n : Nat) :
    ((List.range n).map g).sum = ∑ j ∈ Finset.range n, g j := by
  induction n with
  | zero => simp
  | succ k ih => rw [List.range_succ, Finset.sum_range_succ]; simp [ih]

theorem lookup_odInsert_self {α β : Type} [BEq α] [LawfulBEq α]
    (d : List (α × β)) (k : α) (v : β) :
    List.lookup k (odInsert d k v) = some v := by
  induction d with
  | nil => simp [odInsert, List.lookup]
  | cons e rest ih =>
    obtain ⟨k', v'⟩ := e
    by_cases hk : k' = k
    · subst hk
      simp [odInsert, List.lookup]
    · have : (k' == k) = false := beq_false_of_ne hk
      simp [odInsert, this, List.lookup, ih, beq_false_of_ne (Ne.symm hk)]

theorem lookup_odInsert_ne {α β : Type} [BEq α] [LawfulBEq α]
    (d : List (α × β)) (k k' : α) (v : β) (hne : k' ≠ k) :
    List.lookup k' (odInsert d k v) = List.lookup k' d := by
  induction d with
  | nil => simp [odInsert, List.lookup, beq_false_of_ne hne]
  | cons e rest ih =>
    obtain ⟨k₀, v₀⟩ := e
    by_cases hk : k₀ = k
    · subst hk
      simp [odInsert, List.lookup, beq_false_of_ne hne]
    · have hb : (k₀ == k) = false := beq_false_of_ne hk
      by_cases hk' : k' = k₀
      · subst hk'
        simp [odInsert, hb, List.lookup]
      · simp [odInsert, hb, List.lookup, beq_false_of_ne hk', ih]

theorem DOK.add_apply (m : DOK) (r c : Nat) (v : ℝ) (a b : Nat) :
    m.add r c v a b = m a b + if a = r ∧ b = c then v else 0 := by
  by_cases h : a = r ∧ b = c <;> simp [DOK.add, h]

theorem colSum_add (m : DOK) (n i r c : Nat) (v : ℝ) :
    colSum (m.add r c v) n i
      = colSum m n i + if c = i ∧ r < n then v else 0 := by
  unfold colSum
  simp only [DOK.add_apply]
  rw [Finset.sum_add_distrib]
  congr 1
  by_cases hc : c = i
  · subst hc
    by_cases hr : r < n
    · rw [Finset.sum_eq_single r]
      · simp [hr]
      · intro k _ hk
        simp [hk]
      · intro hrn
        exact absurd (Finset.mem_range.mpr hr) hrn
    · simp only [hr, and_false, if_false]
      apply Finset.sum_eq_zero
      intro k hk
      have : k ≠ r := by
        intro h
        exact hr (h ▸ Finset.mem_range.mp hk)
      simp [this]
  · simp only [hc, and_false, if_false]
    apply Finset.sum_eq_zero
    intro k _
    simp only [ite_eq_right_iff, and_imp]
    intro _ hic
    exact absurd hic.symm hc

theorem dokAdd_eq_some (n : Nat) (m : DOK) (r c : Nat) (v : ℝ) (m' : DOK)
    (h : dokAdd n m r c v = some m') : m' = m.add r c v ∧ r < n ∧ c < n := by
  unfold dokAdd at h
  by_cases hb : r < n ∧ c < n
  · rw [if_pos hb] at h
    cases h
    exact ⟨rfl, hb⟩
  · rw [if_neg hb] at h
    cases h

/-- An `Option` fold succeeds when every step succeeds from any
accumulator. -/
theorem foldlM_option_total {α β : Type} (f : β → α → Option β) (l : List α)
    (h : ∀ b x, x ∈ l → ∃ b', f b x = some b') (b : β) :
    ∃ B, l.foldlM f b = some B := by
  induction l generalizing b with
  | nil => exact ⟨b, rfl⟩
  | cons a t ih =>
    obtain ⟨b', hb'⟩ := h b a (List.mem_cons_self a t)
    obtain ⟨B, hB⟩ := ih (fun b x hx => h b x (List.mem_cons_of_mem a hx)) b'
    exact ⟨B, by rw [List.foldlM_cons, hb']; exact hB⟩

/-- The decay block never changes the nuclide's name. -/
theorem readDecayPaths_name (node : NuclideTableNode) (nuc n' : Nuclide)
    (h : readDecayPaths node nuc = some n') : n'.name = nuc.name := by
  unfold readDecayPaths at h
  by_cases hpos : nuc.n_decay_paths > 0
  · rw [if_pos hpos] at h
    simp only [bind, Option.bind_eq_some] at h
    obtain ⟨hl, _, hfold⟩ := h
    refine foldlM_option_invariant (fun n => n.name = nuc.name) _ _ _ _ hfold rfl ?_
    intro ch b₁ b₂ _ hstep hP
    simp only [bind, Option.bind_eq_some] at hstep
    obtain ⟨br, _, hpure⟩ := hstep
    cases hpure
    exact hP
  · rw [if_neg hpos] at h
    cases h
    rfl

/-- The reaction block never changes the nuclide's name. -/
theorem readReactionPaths_name (node : NuclideTableNode) (nuc : Nuclide)
    (rl : List String) (p : Nuclide × List String)
    (h : readReactionPaths node nuc rl = some p) : p.1.name = nuc.name := by
  unfold readReactionPaths at h
  by_cases hpos : nuc.n_reaction_paths > 0
  · rw [if_pos hpos] at h
    refine foldlM_option_invariant (fun q => q.1.name = nuc.name) _ _ _ _ h rfl ?_
    intro ch b₁ b₂ _ hstep hP
    by_cases hty : ch.type ≠ "fission"
    · rw [if_pos hty] at hstep
      cases hstep
      exact hP
    · rw [if_neg hty] at hstep
      simp only [bind, Option.bind_eq_some] at hstep
      obtain ⟨en, _, hpure⟩ := hstep
      cases hpure
      exact hP
  · rw [if_neg hpos] at h
    cases h
    rfl

/-- One successful nuclide-table iteration appends the node's name, inserts
it into the dictionary at the running index, and advances the counters. -/
theorem readNuclideTable_effect (st : LoadState) (node : NuclideTableNode)
    (st' : LoadState) (h : readNuclideTable st node = some st') :
    st'.nuclides.map (fun n => n.name)
        = st.nuclides.map (fun n => n.name) ++ [node.name] ∧
      st'.nuclide_dict = odInsert st.nuclide_dict node.name st.nuclide_index ∧
      st'.nuclide_index = st.nuclide_index + 1 ∧
      st'.nuclides.length = st.nuclides.length + 1 := by
  unfold readNuclideTable at h
  simp only [bind, Option.bind_eq_some] at h
  obtain ⟨ndp, _, nrp, _, n₁, hdec, pr, hreact, hpure⟩ := h
  cases hpure
  have h1 := readDecayPaths_name _ _ _ hdec
  have h2 := readReactionPaths_name _ _ _ _ hreact
  refine ⟨?_, rfl, rfl, by simp⟩
  simp [h2, h1]

/-- Accumulated effect of the nuclide-table loop on names and counters. -/
theorem nuclide_fold_names (nodes : List NuclideTableNode) :
    ∀ (st st' : LoadState), nodes.foldlM readNuclideTable st = some st' →
      st'.nuclides.map (fun n => n.name)
          = st.nuclides.map (fun n => n.name) ++ nodes.map (fun n => n.name) ∧
        st'.nuclide_index = st.nuclide_index + nodes.length ∧
        st'.nuclides.length = st.nuclides.length + nodes.length := by
  induction nodes with
  | nil =>
    intro st st' h
    cases h
    simp
  | cons nd tl ih =>
    intro st st' h
    rw [List.foldlM_cons] at h
    cases hstep : readNuclideTable st nd with
    | none => rw [hstep] at h; cases h
    | some st₁ =>
      rw [hstep] at h
      obtain ⟨e1, _, e3, e4⟩ := readNuclideTable_effect _ _ _ hstep
      obtain ⟨i1, i2, i3⟩ := ih st₁ st' h
      refine ⟨?_, ?_, ?_⟩
      · rw [i1, e1]
        simp
      · rw [i2, e3, List.length_cons]
        omega
      · rw [i3, e4, List.length_cons]
        omega

/-- Every dictionary value stays below the running index, and every name
seen so far (or already present) is found in the dictionary. -/
theorem nuclide_fold_dict_covers (nodes : List NuclideTableNode) :
    ∀ (st st' : LoadState), nodes.foldlM readNuclideTable st = some st' →
      (∀ nm i, List.lookup nm st.nuclide_dict = some i → i < st.nuclide_index) →
      (∀ nm i, List.lookup nm st'.nuclide_dict = some i → i < st'.nuclide_index) ∧
      (∀ nm, (∃ i, List.lookup nm st.nuclide_dict = some i)
          ∨ nm ∈ nodes.map (fun n => n.name) →
        ∃ i, List.lookup nm st'.nuclide_dict = some i) := by
  induction nodes with
  | nil =>
    intro st st' h hb
    cases h
    refine ⟨hb, ?_⟩
    intro nm hnm
    rcases hnm with h' | h'
    · exact h'
    · cases h'
  | cons nd tl ih =>
    intro st st' h hb
    rw [List.foldlM_cons] at h
    cases hstep : readNuclideTable st nd with
    | none => rw [hstep] at h; cases h
    | some st₁ =>
      rw [hstep] at h
      obtain ⟨_, e2, e3, _⟩ := readNuclideTable_effect _ _ _ hstep
      have hb₁ : ∀ nm i, List.lookup nm st₁.nuclide_dict = some i →
          i < st₁.nuclide_index := by
        intro nm i hl
        rw [e2] at hl
        rw [e3]
        by_cases hnm : nm = nd.name
        · subst hnm
          rw [lookup_odInsert_self] at hl
          cases hl
          omega
        · rw [lookup_odInsert_ne _ _ _ _ hnm] at hl
          have := hb nm i hl
          omega
      obtain ⟨ib, ic⟩ := ih st₁ st' h hb₁
      refine ⟨ib, ?_⟩
      intro nm hnm
      apply ic
      by_cases hnd : nm = nd.name
      · subst hnd
        left
        exact ⟨st.nuclide_index, by rw [e2, lookup_odInsert_self]⟩
      · rcases hnm with ⟨i, hi⟩ | hmem
        · left
          exact ⟨i, by rw [e2, lookup_odInsert_ne _ _ _ _ hnd]; exact hi⟩
        · right
          simp only [List.map_cons, List.mem_cons] at hmem
          rcases hmem with h' | h'
          · exact absurd h' hnd
          · simpa using h'

/-- With pairwise-distinct names, the dictionary built by the nuclide-table
loop maps the `j`-th loaded name to `j`. -/
theorem nuclide_fold_dict_nodup (nodes : List NuclideTableNode) :
    ∀ (st st' : LoadState), nodes.foldlM readNuclideTable st = some st' →
      st.nuclide_index = st.nuclides.length →
      (st.nuclides.map (fun n => n.name)
        ++ nodes.map (fun n => n.name)).Nodup →
      (∀ j nm, (st.nuclides.map (fun n => n.name)).get? j = some nm →
        List.lookup nm st.nuclide_dict = some j) →
      ∀ j nm, (st'.nuclides.map (fun n => n.name)).get? j = some nm →
        List.lookup nm st'.nuclide_dict = some j := by
  induction nodes with
  | nil =>
    intro st st' h _ _ hprev
    cases h
    exact hprev
  | cons nd tl ih =>
    intro st st' h hidx hnodup hprev
    rw [List.foldlM_cons] at h
    cases hstep : readNuclideTable st nd with
    | none => rw [hstep] at h; cases h
    | some st₁ =>
      rw [hstep] at h
      obtain ⟨e1, e2, e3, e4⟩ := readNuclideTable_effect _ _ _ hstep
      have hnotmem : nd.name ∉ st.nuclides.map (fun n => n.name) := by
        intro hmem
        have hd := List.disjoint_of_nodup_append hnodup
        exact hd hmem (by simp)
      have hidx₁ : st₁.nuclide_index = st₁.nuclides.length := by
        rw [e3, e4, hidx]
      have hnodup₁ : (st₁.nuclides.map (fun n => n.name)
          ++ tl.map (fun n => n.name)).Nodup := by
        rw [e1]
        rw [List.map_cons, List.append_cons] at hnodup
        exact hnodup
      have hprev₁ : ∀ j nm, (st₁.nuclides.map (fun n => n.name)).get? j = some nm →
          List.lookup nm st₁.nuclide_dict = some j := by
        intro j nm hj
        rw [e1] at hj
        rw [e2]
        by_cases hjlen : j < (st.nuclides.map (fun n => n.name)).length
        · rw [List.get?_append hjlen] at hj
          have hne : nm ≠ nd.name := by
            intro he
            exact hnotmem (he ▸ List.get?_mem hj)
          rw [lookup_odInsert_ne _ _ _ _ hne]
          exact hprev j nm hj
        · have hlen : (st.nuclides.map (fun n => n.name)).length ≤ j :=
            Nat.le_of_not_lt hjlen
          rw [List.get?_append_right hlen] at hj
          cases hcase : j - (st.nuclides.map (fun n => n.name)).length with
          | zero =>
            rw [hcase] at hj
            simp only [List.get?] at hj
            cases hj
            have hjeq : j = st.nuclides.length := by
              have := List.length_map st.nuclides (fun n => n.name)
              omega
            rw [hjeq, ← hidx]
            exact lookup_odInsert_self _ _ _
          | succ k =>
            rw [hcase] at hj
            simp only [List.get?] at hj
            cases hj
      exact ih st₁ st' h hidx₁ hnodup₁ hprev₁

/-- Names absent from the enumerated list look up unchanged through the
index-dictionary fold. -/
theorem lookup_buildIndexDict_fold_not_mem {α : Type} [BEq α] [LawfulBEq α]
    (l : List α) :
    ∀ (d : List (α × Nat)) (k : Nat) (y : α), y ∉ l →
      List.lookup y (l.foldl
        (fun p x => (odInsert p.1 x p.2, p.2 + 1)) (d, k)).1
        = List.lookup y d := by
  induction l with
  | nil => intro d k y _; rfl
  | cons a t ih =>
    intro d k y hy
    rw [List.foldl_cons]
    rw [ih (odInsert d a k) (k + 1) y (fun hm => hy (List.mem_cons_of_mem a hm))]
    exact lookup_odInsert_ne _ _ _ _ (fun he => hy (he ▸ List.mem_cons_self a t))

/-- Every member of the enumerated list is found in the index dictionary,
with an index below the list length. -/
theorem lookup_buildIndexDict_mem {α : Type} [BEq α] [LawfulBEq α]
    (l : List α) (x : α) (hx : x ∈ l) :
    ∃ i, List.lookup x (buildIndexDict l) = some i ∧ i < l.length := by
  suffices h : ∀ (t : List α) (d : List (α × Nat)) (k : Nat) (x : α), x ∈ t →
      ∃ i, List.lookup x (t.foldl
        (fun p x => (odInsert p.1 x p.2, p.2 + 1)) (d, k)).1 = some i ∧
        i < k + t.length by
    obtain ⟨i, hi, hilt⟩ := h l [] 0 x hx
    exact ⟨i, hi, by simpa using hilt⟩
  intro t
  induction t with
  | nil => intro d k y hy; cases hy
  | cons a s ih =>
    intro d k y hy
    rw [List.foldl_cons]
    by_cases hys : y ∈ s
    · obtain ⟨i, hi, hilt⟩ := ih (odInsert d a k) (k + 1) y hys
      exact ⟨i, hi, by simp only [List.length_cons]; omega⟩
    · have hya : y = a := by
        rcases List.mem_cons.mp hy with h' | h'
        · exact h'
        · exact absurd h' hys
      subst hya
      rw [lookup_buildIndexDict_fold_not_mem s (odInsert d y k) (k + 1) y hys,
        lookup_odInsert_self]
      exact ⟨k, rfl, by simp only [List.length_cons]; omega⟩

/-- Stamping `yield_ind` on an element does not change the list of names. -/
theorem set_yield_ind_map_name :
    ∀ (l : List Nuclide) (n : Nat) (h : n < l.length) (p : Nat),
      (l.set n { l.get ⟨n, h⟩ with yield_ind := p }).map (fun nu => nu.name)
        = l.map (fun nu => nu.name)
  | a :: t, 0, _, p => by simp
  | a :: t, n + 1, h, p => by
    simp only [List.set_cons_succ, List.map_cons, List.get_cons_succ]
    rw [set_yield_ind_map_name t n (by simpa using h) p]

/-- A successful numpy row assignment preserves the array's logical shape
and the energy dictionary. -/
theorem npSetRow_effect (y : Yield) (p e : Nat) (row : List ℚ) (y' : Yield)
    (h : npSetRow y p e row = some y') :
    y'.n_fis_prod = y.n_fis_prod ∧ y'.n_energies = y.n_energies ∧
      y'.n_precursors = y.n_precursors ∧ y'.energy_dict = y.energy_dict := by
  unfold npSetRow at h
  by_cases hc : p < y.n_fis_prod ∧ e < y.n_energies ∧
      row.length = y.n_precursors
  · rw [if_pos hc] at h
    cases h
    exact ⟨rfl, rfl, rfl, rfl⟩
  · rw [if_neg hc] at h
    cases h

/-- One successful fission-product iteration preserves the nuclide names,
the table's logical shape and energy dictionary, and advances the product
index. -/
theorem readYieldTable_effect (dict : List (String × Nat))
    (st : YieldLoadState) (node : YieldTableNode) (st' : YieldLoadState)
    (h : readYieldTable dict st node = some st') :
    st'.nuclides.map (fun n => n.name) = st.nuclides.map (fun n => n.name) ∧
      st'.yields.n_fis_prod = st.yields.n_fis_prod ∧
      st'.yields.n_energies = st.yields.n_energies ∧
      st'.yields.n_precursors = st.yields.n_precursors ∧
      st'.yields.energy_dict = st.yields.energy_dict ∧
      st'.product_index = st.product_index + 1 := by
  unfold readYieldTable at h
  simp only [bind, Option.bind_eq_some] at h
  obtain ⟨nuc_ind, hlook, h⟩ := h
  by_cases hlt : nuc_ind < st.nuclides.length
  · rw [dif_pos hlt] at h
    simp only [bind, Option.bind_eq_some] at h
    obtain ⟨y₁, hfold, hpure⟩ := h
    cases hpure
    have hy := foldlM_option_invariant (fun y : Yield =>
        y.n_fis_prod = st.yields.n_fis_prod ∧
        y.n_energies = st.yields.n_energies ∧
        y.n_precursors = st.yields.n_precursors ∧
        y.energy_dict = st.yields.energy_dict)
      _ _ _ _ hfold ⟨rfl, rfl, rfl, rfl⟩ ?_
    · exact ⟨set_yield_ind_map_name _ _ _ _, hy.1, hy.2.1, hy.2.2.1, hy.2.2.2, rfl⟩
    · intro fy b₁ b₂ _ hstep hP
      unfold fyStep at hstep
      simp only [bind, Option.bind_eq_some] at hstep
      obtain ⟨en, _, ei, _, row, _, hset⟩ := hstep
      have q := npSetRow_effect _ _ _ _ _ hset
      dsimp only at q
      exact ⟨q.1.trans hP.1, q.2.1.trans hP.2.1, q.2.2.1.trans hP.2.2.1,
        q.2.2.2.trans hP.2.2.2⟩
  · rw [dif_neg hlt] at h
    cases h

/-- Names of loaded nuclides are preserved by the fission-product loop. -/
theorem yield_fold_names (dict : List (String × Nat))
    (tbs : List YieldTableNode) :
    ∀ (st st' : YieldLoadState),
      tbs.foldlM (readYieldTable dict) st = some st' →
      st'.nuclides.map (fun n => n.name) = st.nuclides.map (fun n => n.name) := by
  induction tbs with
  | nil =>
    intro st st' h
    cases h
    rfl
  | cons tb tl ih =>
    intro st st' h
    rw [List.foldlM_cons] at h
    cases hstep : readYieldTable dict st tb with
    | none => rw [hstep] at h; cases h
    | some st₁ =>
      rw [hstep] at h
      exact (ih st₁ st' h).trans (readYieldTable_effect _ _ _ _ hstep).1

/-- The decay block succeeds whenever its required attributes are
present. -/
theorem readDecayPaths_total (node : NuclideTableNode) (nuc : Nuclide)
    (h : nuc.n_decay_paths > 0 → node.half_life.isSome ∧
      ∀ ch ∈ node.decay_children, ch.branching_ratio.isSome) :
    ∃ n', readDecayPaths node nuc = some n' := by
  unfold readDecayPaths
  by_cases hpos : nuc.n_decay_paths > 0
  · rw [if_pos hpos]
    obtain ⟨hhl, hch⟩ := h hpos
    obtain ⟨hl, hhl'⟩ := Option.isSome_iff_exists.mp hhl
    rw [hhl']
    simp only [bind, Option.some_bind]
    exact foldlM_option_total _ _ (fun b ch hm => by
      obtain ⟨br, hbr⟩ := Option.isSome_iff_exists.mp (hch ch hm)
      exact ⟨_, by simp only [bind, hbr, Option.some_bind]; rfl⟩) _
  · rw [if_neg hpos]
    exact ⟨nuc, rfl⟩

/-- The reaction block succeeds whenever every fission child carries an
`energy` attribute. -/
theorem readReactionPaths_total (node : NuclideTableNode) (nuc : Nuclide)
    (rl : List String)
    (h : nuc.n_reaction_paths > 0 →
      ∀ ch ∈ node.reaction_children, ch.type = "fission" → ch.energy.isSome) :
    ∃ p, readReactionPaths node nuc rl = some p := by
  unfold readReactionPaths
  by_cases hpos : nuc.n_reaction_paths > 0
  · rw [if_pos hpos]
    exact foldlM_option_total _ _ (fun b ch hm => by
      by_cases hty : ch.type ≠ "fission"
      · exact ⟨_, by rw [if_pos hty]; rfl⟩
      · obtain ⟨en, hen⟩ := Option.isSome_iff_exists.mp
          (h hpos ch hm (Decidable.not_not.mp hty))
        exact ⟨_, by rw [if_neg hty]; simp only [bind, hen, Option.some_bind]; rfl⟩) _
  · rw [if_neg hpos]
    exact ⟨(nuc, rl), rfl⟩

/-- A nuclide-table iteration succeeds from any state whenever the node's
required attributes are present — the declared counts are never checked
against the children actually present. -/
theorem readNuclideTable_total (st : LoadState) (node : NuclideTableNode)
    (hwf : NodeAttrsPresent node) : ∃ st', readNuclideTable st node = some st' := by
  obtain ⟨h1, h2, h3, h4⟩ := hwf
  obtain ⟨d, hd⟩ := Option.isSome_iff_exists.mp h1
  obtain ⟨r, hr⟩ := Option.isSome_iff_exists.mp h2
  have hd' : node.decay_modes.getD 0 = d := by rw [hd]; rfl
  have hr' : node.reactions.getD 0 = r := by rw [hr]; rfl
  obtain ⟨n₁, hn₁⟩ := readDecayPaths_total node
    { name := node.name, n_decay_paths := d, n_reaction_paths := r,
      yield_ind := 0, fission_power := 0 }
    (fun hdp => h3 (by rw [hd']; exact hdp))
  obtain ⟨p, hp⟩ := readReactionPaths_total node n₁ st.reaction_list
    (fun hrp => h4 (by
      rw [hr']
      have := (readDecayPaths_name _ _ _ hn₁)
      have hnrp : n₁.n_reaction_paths = r := by
        unfold readDecayPaths at hn₁
        dsimp only at hn₁
        by_cases hpos : d > 0
        · rw [if_pos hpos] at hn₁
          simp only [bind, Option.bind_eq_some] at hn₁
          obtain ⟨hl, _, hfold⟩ := hn₁
          exact foldlM_option_invariant (fun n => n.n_reaction_paths = r)
            _ _ _ _ hfold rfl (by
              intro ch b₁ b₂ _ hstep hP
              simp only [bind, Option.bind_eq_some] at hstep
              obtain ⟨br, _, hpure⟩ := hstep
              cases hpure
              exact hP)
        · rw [if_neg hpos] at hn₁
          cases hn₁
          rfl
      rw [← hnrp]
      exact hrp))
  exact ⟨_, by
    unfold readNuclideTable
    simp only [bind, hd, hr, Option.some_bind, hn₁, hp]
    rfl⟩

theorem npSetRow_total (y : Yield) (p e : Nat) (row : List ℚ)
    (h1 : p < y.n_fis_prod) (h2 : e < y.n_energies)
    (h3 : row.length = y.n_precursors) :
    ∃ y', npSetRow y p e row = some y' := by
  unfold npSetRow
  rw [if_pos ⟨h1, h2, h3⟩]
  exact ⟨_, rfl⟩

/-- The per-energy loop of one fission-product iteration succeeds whenever
each sub-block's energy resolves in the energy dictionary (below the
energy-point count), its data row is present with exactly one entry per
precursor, and the product index is in range. -/
theorem fy_fold_total (nm : String) (pidx nf ne np : Nat)
    (edict : List (ℚ × Nat)) (fys : List FissionYieldsNode) :
    ∀ (y : Yield), y.n_fis_prod = nf → y.n_energies = ne →
      y.n_precursors = np → y.energy_dict = edict → pidx < nf →
      (∀ fy ∈ fys,
        (∃ en ei, fy.energy = some en ∧
          List.lookup en edict = some ei ∧ ei < ne) ∧
        (∃ row, fy.fy_data = some row ∧ row.length = np)) →
      ∃ y', fys.foldlM (fyStep nm pidx) y = some y' := by
  induction fys with
  | nil =>
    intro y _ _ _ _ _ _
    exact ⟨y, rfl⟩
  | cons fy tl ih =>
    intro y hf he hp hd hlt hwf
    obtain ⟨⟨en, ei, hen, hei, heilt⟩, row, hrow, hrlen⟩ :=
      hwf fy (List.mem_cons_self _ _)
    obtain ⟨y₁, hy₁⟩ := npSetRow_total
      { y with fis_prod_dict := odInsert y.fis_prod_dict nm pidx } pidx ei row
      (hf ▸ hlt) (he ▸ heilt) (hp ▸ hrlen)
    have q := npSetRow_effect _ _ _ _ _ hy₁
    dsimp only at q
    obtain ⟨q1, q2, q3, q4⟩ := q
    obtain ⟨y', hy'⟩ := ih y₁ (q1.trans hf) (q2.trans he) (q3.trans hp)
      (q4.trans hd) hlt (fun fy' hm => hwf fy' (List.mem_cons_of_mem _ hm))
    have hei' : List.lookup en y.energy_dict = some ei := by
      rw [hd]
      exact hei
    have hstep : fyStep nm pidx y fy = some y₁ := by
      unfold fyStep
      simp only [bind, hen, Option.some_bind, hei', hrow]
      exact hy₁
    refine ⟨y', ?_⟩
    rw [List.foldlM_cons, hstep]
    exact hy'

/-- The fission-product loop succeeds whenever each table's name resolves in
the nuclide dictionary (below the nuclide count), each energy resolves below
the declared energy-point count, each data row matches the precursor count,
and there are no more tables than declared products. -/
theorem yield_fold_total (dict : List (String × Nat)) (N nf ne np : Nat)
    (edict : List (ℚ × Nat)) (tbs : List YieldTableNode) :
    ∀ (st : YieldLoadState), st.yields.n_fis_prod = nf →
      st.yields.n_energies = ne → st.yields.n_precursors = np →
      st.yields.energy_dict = edict → st.nuclides.length = N →
      st.product_index + tbs.length ≤ nf →
      (∀ tb ∈ tbs, (∃ i, List.lookup tb.name dict = some i ∧ i < N) ∧
        ∀ fy ∈ tb.fy_tables,
          (∃ en ei, fy.energy = some en ∧
            List.lookup en edict = some ei ∧ ei < ne) ∧
          (∃ row, fy.fy_data = some row ∧ row.length = np)) →
      ∃ st', tbs.foldlM (readYieldTable dict) st = some st' := by
  induction tbs with
  | nil =>
    intro st _ _ _ _ _ _ _
    exact ⟨st, rfl⟩
  | cons tb tl ih =>
    intro st h1 h2 h3 h4 h5 h6 h7
    obtain ⟨⟨i, hi, hiN⟩, hfy⟩ := h7 tb (List.mem_cons_self _ _)
    have hpidx : st.product_index < nf := by
      rw [List.length_cons] at h6
      omega
    obtain ⟨y', hy'⟩ := fy_fold_total tb.name st.product_index nf ne np edict
      tb.fy_tables { st.yields with name := st.yields.name ++ [tb.name] }
      h1 h2 h3 h4 hpidx (fun fy hm => hfy fy hm)
    have hstep : ∃ st₁, readYieldTable dict st tb = some st₁ := by
      unfold readYieldTable
      simp only [bind, hi, Option.some_bind]
      rw [dif_pos (show i < st.nuclides.length from h5 ▸ hiN)]
      simp only [bind, hy', Option.some_bind]
      exact ⟨_, rfl⟩
    obtain ⟨st₁, hst₁⟩ := hstep
    obtain ⟨e1, e2, e3, e4, e5, e6⟩ := readYieldTable_effect _ _ _ _ hst₁
    have hlen₁ : st₁.nuclides.length = N := by
      have hml := congrArg List.length e1
      simp only [List.length_map] at hml
      rw [hml, h5]
    obtain ⟨st', hst'⟩ := ih st₁ (e2.trans h1) (e3.trans h2) (e4.trans h3)
      (e5.trans h4) hlen₁
      (by rw [e6]; rw [List.length_cons] at h6; omega)
      (fun tb' hm => h7 tb' (List.mem_cons_of_mem _ hm))
    refine ⟨st', ?_⟩
    rw [List.foldlM_cons, hst₁]
    exact hst'

theorem dokAdd_frozen_off_col (n : Nat) (m : DOK) (r c : Nat) (v : ℝ)
    (m' : DOK) (h : dokAdd n m r c v = some m') :
    ∀ a b, b ≠ c → m' a b = m a b := by
  obtain ⟨rfl, _, _⟩ := dokAdd_eq_some n m r c v m' h
  intro a b hb
  rw [DOK.add_apply]
  simp [hb]

theorem dokAdd_entry (n : Nat) (m : DOK) (r c : Nat) (v : ℝ)
    (m' : DOK) (h : dokAdd n m r c v = some m') (a b : Nat) :
    m' a b = m a b + if a = r ∧ b = c then v else 0 := by
  obtain ⟨rfl, _, _⟩ := dokAdd_eq_some n m r c v m' h
  exact DOK.add_apply m r c v a b

theorem dokAdd_colSum (n : Nat) (m : DOK) (r c : Nat) (v : ℝ)
    (m' : DOK) (h : dokAdd n m r c v = some m') (i : Nat) :
    colSum m' n i = colSum m n i + if c = i then v else 0 := by
  obtain ⟨rfl, hr, _⟩ := dokAdd_eq_some n m r c v m' h
  rw [colSum_add]
  by_cases hc : c = i <;> simp [hc, hr]

/-- A successful decay block at nuclide index `i` writes only into column
`i`. -/
theorem decayStep_frozen (c : DepletionChain) (i : Nat) (nuc : Nuclide)
    (m m' : DOK) (h : decayStep c i nuc m = some m') :
    ∀ a b, b ≠ i → m' a b = m a b := by
  unfold decayStep at h
  by_cases hndp : nuc.n_decay_paths ≠ 0
  · rw [if_pos hndp] at h
    by_cases hhl : nuc.half_life = 0
    · rw [if_pos hhl] at h; cases h
    · rw [if_neg hhl] at h
      simp only [bind, Option.bind_eq_some] at h
      obtain ⟨m₁, hm₁, hfold⟩ := h
      have base := dokAdd_frozen_off_col _ _ _ _ _ _ hm₁
      refine foldlM_option_invariant
        (fun mm => ∀ a b, b ≠ i → mm a b = m a b) _ _ m₁ m' hfold base ?_
      intro j b₁ b₂ _ hstep hP
      simp only [bind, Option.bind_eq_some] at hstep
      obtain ⟨tgt, _, hrest⟩ := hstep
      by_cases hN : tgt = "Nothing"
      · simp only [hN, ne_eq, not_true_eq_false, if_false] at hrest
        cases hrest
        exact hP
      · rw [if_pos hN] at hrest
        simp only [bind, Option.bind_eq_some] at hrest
        obtain ⟨k, _, br, _, hadd⟩ := hrest
        intro a b hb
        rw [dokAdd_frozen_off_col _ _ _ _ _ _ hadd a b hb]
        exact hP a b hb
  · rw [if_neg hndp] at h
    cases h
    intro a b _
    rfl

/-- A successful reaction block at nuclide index `i` writes only into column
`i`. -/
theorem reactionStep_frozen (c : DepletionChain) (rates : ReactionRates)
    (i : Nat) (nuc : Nuclide) (m m' : DOK)
    (h : reactionStep c rates i nuc m = some m') :
    ∀ a b, b ≠ i → m' a b = m a b := by
  unfold reactionStep at h
  refine foldlM_option_invariant
    (fun mm => ∀ a b, b ≠ i → mm a b = m a b) _ _ m m' h (fun _ _ _ => rfl) ?_
  intro j b₁ b₂ _ hstep hP
  simp only [bind, Option.bind_eq_some] at hstep
  obtain ⟨lst, _, rj, _, m₂, hdiag, tgt, _, hrest⟩ := hstep
  have hdiagfr := dokAdd_frozen_off_col _ _ _ _ _ _ hdiag
  by_cases hN : tgt.isNothing = false
  · rw [if_pos hN] at hrest
    simp only [bind, Option.bind_eq_some] at hrest
    obtain ⟨ty, _, hrest⟩ := hrest
    by_cases hty : ty ≠ "fission"
    · rw [if_pos hty] at hrest
      simp only [bind, Option.bind_eq_some] at hrest
      obtain ⟨k, _, hadd⟩ := hrest
      intro a b hb
      rw [dokAdd_frozen_off_col _ _ _ _ _ _ hadd a b hb, hdiagfr a b hb]
      exact hP a b hb
    · rw [if_neg hty] at hrest
      simp only [bind, Option.bind_eq_some] at hrest
      obtain ⟨mp, _, hfold⟩ := hrest
      have base : ∀ a b, b ≠ i → m₂ a b = b₁ a b := hdiagfr
      have inner := foldlM_option_invariant
        (fun mm => ∀ a b, b ≠ i → mm a b = b₁ a b) _ _ m₂ b₂ hfold base ?_
      · intro a b hb
        rw [inner a b hb]
        exact hP a b hb
      · intro k c₁ c₂ _ hkstep hQ
        simp only [bind, Option.bind_eq_some] at hkstep
        obtain ⟨nm, _, l, _, y, _, hadd⟩ := hkstep
        intro a b hb
        rw [dokAdd_frozen_off_col _ _ _ _ _ _ hadd a b hb]
        exact hQ a b hb
  · rw [if_neg hN] at hrest
    cases hrest
    intro a b hb
    rw [hdiagfr a b hb]
    exact hP a b hb

/-- Effect of a successful decay block on the diagonal entry `(i, i)`, when
no decay path of the nuclide resolves back to index `i`. -/
theorem decayStep_diag (c : DepletionChain) (i : Nat) (nuc : Nuclide)
    (m m' : DOK) (h : decayStep c i nuc m = some m')
    (hself : ∀ t ∈ nuc.decay_target, t ≠ "Nothing" →
      List.lookup t c.nuclide_dict ≠ some i) :
    m' i i = m i i +
      (if nuc.n_decay_paths ≠ 0 then -(Real.log 2 / (nuc.half_life : ℝ)) else 0) := by
  unfold decayStep at h
  by_cases hndp : nuc.n_decay_paths ≠ 0
  · rw [if_pos hndp] at h
    by_cases hhl : nuc.half_life = 0
    · rw [if_pos hhl] at h; cases h
    · rw [if_neg hhl] at h
      simp only [bind, Option.bind_eq_some] at h
      obtain ⟨m₁, hm₁, hfold⟩ := h
      have hm₁d := dokAdd_entry _ _ _ _ _ _ hm₁ i i
      have hdiag := foldlM_option_invariant (fun mm => mm i i = m₁ i i)
        _ _ m₁ m' hfold rfl ?_
      · rw [hdiag, hm₁d, if_pos ⟨rfl, rfl⟩, if_pos hndp]
      · intro j b₁ b₂ _ hstep hP
        simp only [bind, Option.bind_eq_some] at hstep
        obtain ⟨tgt, htgt, hrest⟩ := hstep
        by_cases hN : tgt = "Nothing"
        · simp only [hN, ne_eq, not_true_eq_false, if_false] at hrest
          cases hrest
          exact hP
        · rw [if_pos hN] at hrest
          simp only [bind, Option.bind_eq_some] at hrest
          obtain ⟨k, hk, br, _, hadd⟩ := hrest
          have hki : k ≠ i := fun hk' =>
            hself tgt (List.get?_mem htgt) hN (hk' ▸ hk)
          rw [dokAdd_entry _ _ _ _ _ _ hadd i i,
            if_neg (fun hc => hki hc.1.symm), add_zero]
          exact hP
  · rw [if_neg hndp] at h
    cases h
    rw [if_neg hndp, add_zero]

/-- Effect of a successful reaction block on the diagonal entry `(i, i)`,
when no reaction path of the nuclide (directly or through fission yields)
resolves back to index `i`: each declared path subtracts its supplied
rate. -/
theorem reactionStep_diag (c : DepletionChain) (rates : ReactionRates)
    (i : Nat) (nuc : Nuclide) (m m' : DOK) (lst : List ℚ)
    (h : reactionStep c rates i nuc m = some m')
    (hlst : List.lookup nuc.name rates.rate = some lst)
    (hrself : ∀ tgt ∈ nuc.reaction_target, ∀ s, tgt = RTarget.str s →
      List.lookup s c.nuclide_dict ≠ some i)
    (hfself : ∀ nm ∈ c.yields.name, List.lookup nm c.nuclide_dict ≠ some i) :
    m' i i = m i i
      - ∑ j ∈ Finset.range nuc.n_reaction_paths, ((lst.getD j 0 : ℚ) : ℝ) := by
  unfold reactionStep at h
  have hmeas := foldlM_option_measure (fun mm => mm i i)
    (fun j => -((lst.getD j 0 : ℚ) : ℝ)) _ _ _ _ h ?_
  · dsimp only at hmeas
    rw [hmeas, sum_map_range]
    rw [Finset.sum_neg_distrib]
    ring
  · intro j b₁ b₂ _ hstep
    dsimp only
    simp only [bind, Option.bind_eq_some] at hstep
    obtain ⟨lst', hlst', rj, hrj, m₂, hdiag, tgt, htgt, hrest⟩ := hstep
    rw [hlst] at hlst'
    cases hlst'
    have hrjv : lst.getD j 0 = rj := by
      rw [List.getD_eq_get?, hrj]
      rfl
    have hd : m₂ i i = b₁ i i + -((rj : ℚ) : ℝ) := by
      rw [dokAdd_entry _ _ _ _ _ _ hdiag i i, if_pos ⟨rfl, rfl⟩]
    rw [hrjv]
    by_cases hN : tgt.isNothing = false
    · rw [if_pos hN] at hrest
      simp only [bind, Option.bind_eq_some] at hrest
      obtain ⟨ty, _, hrest⟩ := hrest
      by_cases hty : ty ≠ "fission"
      · rw [if_pos hty] at hrest
        simp only [bind, Option.bind_eq_some] at hrest
        obtain ⟨k, hk, hadd⟩ := hrest
        have hki : k ≠ i := by
          cases tgt with
          | str s =>
            exact fun hk' => hrself (.str s) (List.get?_mem htgt) s rfl (hk' ▸ hk)
          | zero => cases hk
        rw [dokAdd_entry _ _ _ _ _ _ hadd i i,
          if_neg (fun hc => hki hc.1.symm), add_zero, hd]
      · rw [if_neg hty] at hrest
        simp only [bind, Option.bind_eq_some] at hrest
        obtain ⟨mp, _, hfold⟩ := hrest
        have hinner := foldlM_option_invariant (fun mm => mm i i = m₂ i i)
          _ _ m₂ b₂ hfold rfl ?_
        · rw [hinner, hd]
        · intro k c₁ c₂ _ hkstep hQ
          simp only [bind, Option.bind_eq_some] at hkstep
          obtain ⟨nm, hnm, l, hl, y, _, hadd⟩ := hkstep
          have hli : l ≠ i := fun hl' =>
            hfself nm (List.get?_mem hnm) (hl' ▸ hl)
          rw [dokAdd_entry _ _ _ _ _ _ hadd i i,
            if_neg (fun hc => hli hc.1.symm), add_zero]
          exact hQ
    · rw [if_neg hN] at hrest
      cases hrest
      exact hd

/-- Summing the first `length` positional reads of a rational list equals
its sum, cast to the reals. -/
theorem sum_getD_cast (l : List ℚ) :
    ∑ j ∈ Finset.range l.length, ((l.getD j 0 : ℚ) : ℝ) = ((l.sum : ℚ) : ℝ) := by
  induction l with
  | nil => simp
  | cons a t ih =>
    rw [List.length_cons, Finset.sum_range_succ']
    simp only [List.getD_cons_succ, List.getD_cons_zero, ih, List.sum_cons]
    push_cast
    ring

/-- A successful decay block leaves the column sum of column `i` unchanged
when no decay target is the `'Nothing'` sentinel and the branching ratios
(one per declared path) sum to 1: the `-decay_constant` diagonal loss is
exactly repaid by the branching-ratio gains. -/
theorem decayStep_colSum (c : DepletionChain) (i : Nat) (nuc : Nuclide)
    (m m' : DOK) (h : decayStep c i nuc m = some m')
    (hdt : ∀ t ∈ nuc.decay_target, t ≠ "Nothing")
    (hbr : nuc.n_decay_paths ≠ 0 →
      nuc.branching_ratio.length = nuc.n_decay_paths ∧
        nuc.branching_ratio.sum = 1) :
    colSum m' c.n_nuclides i = colSum m c.n_nuclides i := by
  unfold decayStep at h
  by_cases hndp : nuc.n_decay_paths ≠ 0
  · obtain ⟨hlen, hsum⟩ := hbr hndp
    rw [if_pos hndp] at h
    by_cases hhl : nuc.half_life = 0
    · rw [if_pos hhl] at h; cases h
    · rw [if_neg hhl] at h
      simp only [bind, Option.bind_eq_some] at h
      obtain ⟨m₁, hm₁, hfold⟩ := h
      have hm₁c := dokAdd_colSum _ _ _ _ _ _ hm₁ i
      rw [if_pos rfl] at hm₁c
      have hmeas := foldlM_option_measure (fun mm => colSum mm c.n_nuclides i)
        (fun j => ((nuc.branching_ratio.getD j 0 : ℚ) : ℝ)
          * (Real.log 2 / (nuc.half_life : ℝ))) _ _ _ _ hfold ?_
      · dsimp only at hmeas
        rw [hmeas, hm₁c, sum_map_range, ← Finset.sum_mul, ← hlen,
          sum_getD_cast, hsum]
        push_cast
        ring
      · intro j b₁ b₂ _ hstep
        dsimp only
        simp only [bind, Option.bind_eq_some] at hstep
        obtain ⟨tgt, htgt, hrest⟩ := hstep
        rw [if_pos (hdt tgt (List.get?_mem htgt))] at hrest
        simp only [bind, Option.bind_eq_some] at hrest
        obtain ⟨k, _, br, hbrj, hadd⟩ := hrest
        have hbrv : nuc.branching_ratio.getD j 0 = br := by
          rw [List.getD_eq_get?, hbrj]
          rfl
        have := dokAdd_colSum _ _ _ _ _ _ hadd i
        rw [if_pos rfl] at this
        rw [this, hbrv]
  · rw [if_neg hndp] at h
    cases h
    rfl

/-- A successful reaction block leaves the column sum of column `i`
unchanged when no reaction target is the `'Nothing'` sentinel and each
fission path's product yield fractions (at the reference energy index 0)
sum to 1: each rate subtracted from the diagonal is repaid in full by its
gain terms. -/
theorem reactionStep_colSum (c : DepletionChain) (rates : ReactionRates)
    (i : Nat) (nuc : Nuclide) (m m' : DOK)
    (h : reactionStep c rates i nuc m = some m')
    (hrt : ∀ tgt ∈ nuc.reaction_target, tgt.isNothing = false)
    (hyield : ∀ mp, List.lookup nuc.name c.precursor_dict = some mp →
      ∑ k ∈ Finset.range c.yields.n_fis_prod,
        c.yields.fis_yield_data k 0 mp = 1) :
    colSum m' c.n_nuclides i = colSum m c.n_nuclides i := by
  unfold reactionStep at h
  have hmeas := foldlM_option_measure (fun mm => colSum mm c.n_nuclides i)
    (fun _ => (0 : ℝ)) _ _ _ _ h ?_
  · dsimp only at hmeas
    rw [hmeas]
    simp
  · intro j b₁ b₂ _ hstep
    dsimp only
    simp only [bind, Option.bind_eq_some] at hstep
    obtain ⟨lst, _, rj, _, m₂, hdiag, tgt, htgt, hrest⟩ := hstep
    have hd := dokAdd_colSum _ _ _ _ _ _ hdiag i
    rw [if_pos rfl] at hd
    rw [if_pos (hrt tgt (List.get?_mem htgt))] at hrest
    simp only [bind, Option.bind_eq_some] at hrest
    obtain ⟨ty, _, hrest⟩ := hrest
    by_cases hty : ty ≠ "fission"
    · rw [if_pos hty] at hrest
      simp only [bind, Option.bind_eq_some] at hrest
      obtain ⟨k, _, hadd⟩ := hrest
      have hg := dokAdd_colSum _ _ _ _ _ _ hadd i
      rw [if_pos rfl] at hg
      rw [hg, hd]
      ring
    · rw [if_neg hty] at hrest
      simp only [bind, Option.bind_eq_some] at hrest
      obtain ⟨mp, hmp, hfold⟩ := hrest
      have hinner := foldlM_option_measure (fun mm => colSum mm c.n_nuclides i)
        (fun k => ((c.yields.fis_yield_data k 0 mp : ℚ) : ℝ) * ((rj : ℚ) : ℝ))
        _ _ _ _ hfold ?_
      · dsimp only at hinner
        rw [hinner, hd, sum_map_range, ← Finset.sum_mul]
        have : ∑ k ∈ Finset.range c.yields.n_fis_prod,
            ((c.yields.fis_yield_data k 0 mp : ℚ) : ℝ) = 1 := by
          rw [← Rat.cast_sum, hyield mp hmp, Rat.cast_one]
        rw [this]
        ring
      · intro k c₁ c₂ _ hkstep
        dsimp only
        simp only [bind, Option.bind_eq_some] at hkstep
        obtain ⟨nm, _, l, _, y, hy, hadd⟩ := hkstep
        have hyv : c.yields.fis_yield_data k 0 mp = y := by
          unfold npRead at hy
          by_cases hb : k < c.yields.n_fis_prod ∧ 0 < c.yields.n_energies ∧
              mp < c.yields.n_precursors
          · rw [if_pos hb] at hy
            exact Option.some.inj hy
          · rw [if_neg hb] at hy
            cases hy
        have hg := dokAdd_colSum _ _ _ _ _ _ hadd i
        rw [if_pos rfl] at hg
        rw [hg, hyv]

/-- C1 (amended): for a nuclide whose decay and reaction paths never use the
`'Nothing'` sentinel, the off-diagonal entries of its column sum to the
negative of its diagonal entry, provided its branching ratios sum to 1 (the
claim's stated proviso) AND each of its fission paths' product yield
fractions at the reference energy sum to 1 (the extra proviso the
counterexample forces — fission yields are not normalised by the code). -/
theorem C1_conservation_amended (c : DepletionChain) (rates : ReactionRates)
    (M : DOK) (i : Nat) (nuc : Nuclide)
    (hM : form_matrix c rates = some M)
    (hi : i < c.n_nuclides)
    (hnuc : c.nuclides.get? i = some nuc)
    (hdt : ∀ t ∈ nuc.decay_target, t ≠ "Nothing")
    (hrt : ∀ tgt ∈ nuc.reaction_target, tgt.isNothing = false)
    (hbr : nuc.n_decay_paths ≠ 0 →
      nuc.branching_ratio.length = nuc.n_decay_paths ∧
        nuc.branching_ratio.sum = 1)
    (hyield : ∀ mp, List.lookup nuc.name c.precursor_dict = some mp →
      ∑ k ∈ Finset.range c.yields.n_fis_prod,
        c.yields.fis_yield_data k 0 mp = 1) :
    ∑ k ∈ (Finset.range c.n_nuclides).erase i, M k i = -(M i i) := by
  have hzero : colSum M c.n_nuclides i = 0 := by
    unfold form_matrix at hM
    have hinv := foldlM_option_invariant
      (fun mm => colSum mm c.n_nuclides i = 0) _ _ _ _ hM ?_ ?_
    · exact hinv
    · unfold colSum DOK.zero
      simp
    · intro i' b₁ b₂ _ hstep hP
      simp only [bind, Option.bind_eq_some] at hstep
      obtain ⟨nuc', hnuc', m₂, hdec, hreact⟩ := hstep
      by_cases hii : i' = i
      · subst hii
        rw [hnuc] at hnuc'
        cases hnuc'
        rw [reactionStep_colSum c rates i' nuc m₂ b₂ hreact hrt hyield,
          decayStep_colSum c i' nuc b₁ m₂ hdec hdt hbr]
        exact hP
      · have h1 := decayStep_frozen c i' nuc' b₁ m₂ hdec
        have h2 := reactionStep_frozen c rates i' nuc' m₂ b₂ hreact
        have : colSum b₂ c.n_nuclides i = colSum b₁ c.n_nuclides i := by
          unfold colSum
          refine Finset.sum_congr rfl ?_
          intro k _
          rw [h2 k i (fun he => hii he.symm), h1 k i (fun he => hii he.symm)]
        rw [this]
        exact hP
  have hsplit := Finset.add_sum_erase (Finset.range c.n_nuclides)
    (fun k => M k i) (Finset.mem_range.mpr hi)
  have : M i i + ∑ k ∈ (Finset.range c.n_nuclides).erase i, M k i = 0 := by
    rw [hsplit]
    exact hzero
  linarith

/-- C6 (amended): provided no path of nuclide `i` feeds nuclide `i` itself
(directly or through the fission-yield products), the diagonal entry
`(i, i)` equals minus the total loss rate — the decay constant plus the
supplied reaction rates — and is therefore negative whenever that loss is
positive (for a stable nuclide with no reaction paths it is zero, not
negative). -/
theorem C6_diagonal_amended (c : DepletionChain) (rates : ReactionRates)
    (M : DOK) (i : Nat) (nuc : Nuclide) (lst : List ℚ)
    (hM : form_matrix c rates = some M)
    (hi : i < c.n_nuclides)
    (hnuc : c.nuclides.get? i = some nuc)
    (hlst : List.lookup nuc.name rates.rate = some lst)
    (hdself : ∀ t ∈ nuc.decay_target, t ≠ "Nothing" →
      List.lookup t c.nuclide_dict ≠ some i)
    (hrself : ∀ tgt ∈ nuc.reaction_target, ∀ s, tgt = RTarget.str s →
      List.lookup s c.nuclide_dict ≠ some i)
    (hfself : ∀ nm ∈ c.yields.name, List.lookup nm c.nuclide_dict ≠ some i) :
    M i i = -(totalLoss nuc lst) ∧
      (0 < totalLoss nuc lst → M i i < 0) := by
  have key : M i i = -(totalLoss nuc lst) := by
    unfold form_matrix at hM
    have hmeas := foldlM_option_measure (fun mm => mm i i)
      (fun i' => if i' = i then -(totalLoss nuc lst) else 0) _ _ _ _ hM ?_
    · dsimp only at hmeas
      rw [hmeas, sum_map_range, Finset.sum_ite_eq' (Finset.range c.n_nuclides)]
      simp [DOK.zero, Finset.mem_range.mpr hi]
    · intro i' b₁ b₂ _ hstep
      dsimp only
      simp only [bind, Option.bind_eq_some] at hstep
      obtain ⟨nuc', hnuc', m₂, hdec, hreact⟩ := hstep
      by_cases hii : i' = i
      · subst hii
        rw [hnuc] at hnuc'
        cases hnuc'
        have h1 := decayStep_diag c i' nuc _ _ hdec hdself
        have h2 := reactionStep_diag c rates i' nuc _ _ lst hreact hlst hrself hfself
        rw [h2, h1, if_pos rfl]
        unfold totalLoss
        by_cases hndp : nuc.n_decay_paths ≠ 0 <;> simp [hndp] <;> ring
      · have h1 := decayStep_frozen c i' nuc' b₁ m₂ hdec i i (fun he => hii he.symm)
        have h2 := reactionStep_frozen c rates i' nuc' m₂ b₂ hreact i i (fun he => hii he.symm)
        rw [h2, h1, if_neg hii, add_zero]
  exact ⟨key, fun hpos => by rw [key]; linarith⟩

/-- C3: on the two-nuclide chain with A (half-life 10 s, decay to B at
branching ratio 1.0) and B (stable, one capture path to the `'Nothing'`
sentinel at rate 0.01/s), `form_matrix` returns exactly
`[[-ln(2)/10, 0], [ln(2)/10, -0.01]]` in nuclide order `[A, B]`. -/
theorem C3_two_nuclide_scenario :
    ∃ M, form_matrix chainAB ratesAB = some M ∧
      M 0 0 = -(Real.log 2 / 10) ∧ M 0 1 = 0 ∧
      M 1 0 = Real.log 2 / 10 ∧ M 1 1 = -(1/100 : ℝ) := by
  refine ⟨_, rfl, ?_⟩
  simp [form_matrix, decayStep, reactionStep, dokAdd, DOK.add, DOK.zero,
    List.range, List.range.loop, List.foldlM, List.lookup, nucA, nucB,
    chainAB, ratesAB, RTarget.isNothing]

/-- C2: on the fission chain with fissile F (one fission path at rate `r`)
and product P (yield fraction 0.9 at the reference energy), the assembled
matrix has `(F,F) = -r` and `(P,F) = 0.9*r`; the lookup takes the yield at
the fixed energy index 0, even though the table holds a different fraction
(0.5) at energy index 1. -/
theorem C2_fission_scenario (r : ℚ) :
    ∃ M, form_matrix chainFP (ratesFP r) = some M ∧
      M 0 0 = -(r : ℝ) ∧ M 1 0 = (9/10 : ℝ) * (r : ℝ) ∧
      chainFP.yields.fis_yield_data 0 1 0 = 1/2 := by
  refine ⟨_, rfl, ?_⟩
  simp [form_matrix, decayStep, reactionStep, dokAdd, DOK.add, DOK.zero,
    npRead, List.range, List.range.loop, List.foldlM, List.lookup, nucF,
    nucP, chainFP, yieldFP, ratesFP, RTarget.isNothing]

/-- C1 counterexample: in the fission chain, F's paths never use the
`'Nothing'` sentinel and F has no decay paths (so the branching-ratio
proviso is vacuous), yet the off-diagonal sum of F's column is 0.9 while
the negated diagonal is 1 — fission yields that do not sum to 1 break the
claimed conservation. -/
theorem C1_counterexample :
    nucF.decay_target = [] ∧
    (∀ tgt ∈ nucF.reaction_target, tgt.isNothing = false) ∧
    ∃ M, form_matrix chainFP (ratesFP 1) = some M ∧
      ∑ k ∈ (Finset.range chainFP.n_nuclides).erase 0, M k 0 = (9/10 : ℝ) ∧
      -(M 0 0) = 1 ∧ (9/10 : ℝ) ≠ 1 := by
  refine ⟨rfl, by decide, _, rfl, ?_⟩
  have herase : (Finset.range chainFP.n_nuclides).erase 0 = {1} := by decide
  rw [herase, Finset.sum_singleton]
  refine ⟨?_, ?_, by norm_num⟩ <;>
    simp [form_matrix, decayStep, reactionStep, dokAdd, DOK.add, DOK.zero,
      npRead, List.range, List.range.loop, List.foldlM, List.lookup, nucF,
      nucP, chainFP, yieldFP, ratesFP, RTarget.isNothing]

/-- Witness for C1 (amended): column D of the witness chain is conserving —
its sole off-diagonal entry equals the negated diagonal. -/
theorem C1_conservation_amended_witness :
    ∃ M, form_matrix chainParD ratesParD = some M ∧
      ∑ k ∈ (Finset.range chainParD.n_nuclides).erase 1, M k 1 = -(M 1 1) := by
  refine ⟨_, rfl, ?_⟩
  exact C1_conservation_amended chainParD ratesParD _ 1 nucD rfl (by decide) rfl
    (by intro t ht; simp [nucD] at ht)
    (by decide)
    (fun h => absurd rfl h)
    (by intro mp hmp; simp [List.lookup, chainParD] at hmp)

/-- C7: `form_matrix` is a deterministic (pure) function of the chain and
the rate set — two calls on equal inputs return equal matrices; the
accumulation order is fixed by the input ordering of nuclides and paths. -/
theorem C7_form_matrix_deterministic (c : DepletionChain)
    (r₁ r₂ : ReactionRates) (h : r₁ = r₂) :
    form_matrix c r₁ = form_matrix c r₂ := by
  rw [h]

/-- Witness for C7 at the concrete two-nuclide scenario input. -/
theorem C7_form_matrix_deterministic_witness :
    form_matrix chainAB ratesAB = form_matrix chainAB ratesAB :=
  C7_form_matrix_deterministic chainAB ratesAB ratesAB rfl

/-- C5 counterexample: nuclide X declares `decay_modes="2"` but provides
only one decay child, yet loading succeeds and returns a chain recording
the declared count 2 alongside the single collected path — the loader does
not compare declared counts with the children present. -/
theorem C5_counterexample :
    nodeMismatch.decay_modes = some 2 ∧
    nodeMismatch.decay_children.length = 1 ∧
    ∃ c nuc, xml_read rootMismatch = some c ∧
      c.nuclides.get? 0 = some nuc ∧
      nuc.n_decay_paths = 2 ∧ nuc.decay_target.length = 1 :=
  ⟨rfl, rfl, _, _, rfl, rfl, rfl, rfl⟩

/-- C5 (amended): loading never fails because a declared `decay_modes` or
`reactions` count disagrees with the children present — the loader succeeds
whenever the required attributes exist and the fission-yield block is
internally consistent, with no condition at all relating declared counts to
child counts; a mismatch surfaces (if ever) only at assembly time. -/
theorem C5_no_count_validation (root : RootNode)
    (nf np ne : Nat) (pl : List String) (el : List ℚ)
    (h1 : root.nfy.nuclides_count = some nf)
    (h2 : root.nfy.precursor_count = some np)
    (h3 : root.nfy.energy_points = some ne)
    (h4 : root.nfy.precursor_name = some pl)
    (h5 : root.nfy.energy = some el)
    (hnodes : ∀ node ∈ root.decay_tables, NodeAttrsPresent node)
    (htlen : root.nfy.tables.length ≤ nf)
    (helen : el.length ≤ ne)
    (htb : ∀ tb ∈ root.nfy.tables,
      tb.name ∈ root.decay_tables.map (fun n => n.name) ∧
      ∀ fy ∈ tb.fy_tables,
        (∃ en, fy.energy = some en ∧ en ∈ el) ∧
        (∃ row, fy.fy_data = some row ∧ row.length = np)) :
    (xml_read root).isSome = true := by
  obtain ⟨st, hst⟩ := foldlM_option_total readNuclideTable root.decay_tables
    (fun b node hm => readNuclideTable_total b node (hnodes node hm))
    { n_nuclides := 0, nuclides := [], nuclide_dict := [],
      reaction_list := [], nuclide_index := 0 }
  have hnames := nuclide_fold_names root.decay_tables _ _ hst
  have hcov := nuclide_fold_dict_covers root.decay_tables _ _ hst
    (fun nm i h => Option.noConfusion h)
  have hidx_len : st.nuclide_index = st.nuclides.length := by
    obtain ⟨-, hI, hL⟩ := hnames
    dsimp only at hI hL
    simp only [List.length_nil] at hL
    omega
  obtain ⟨yst, hyst⟩ := yield_fold_total st.nuclide_dict st.nuclides.length
    nf ne np (buildIndexDict el) root.nfy.tables
    { yields := { n_fis_prod := nf, n_precursors := np, n_energies := ne,
                  precursor_list := pl, energy_list := el,
                  energy_dict := buildIndexDict el, name := [],
                  fis_yield_data := fun _ _ _ => 0, fis_prod_dict := [] },
      nuclides := st.nuclides, product_index := 0 }
    rfl rfl rfl rfl rfl (by dsimp only; omega)
    (fun tb hm => by
      obtain ⟨hmem, hfy⟩ := htb tb hm
      refine ⟨?_, ?_⟩
      · obtain ⟨i, hi⟩ := hcov.2 tb.name (Or.inr hmem)
        refine ⟨i, hi, ?_⟩
        have := hcov.1 tb.name i hi
        omega
      · intro fy hfym
        obtain ⟨⟨en, hen, henel⟩, hrow⟩ := hfy fy hfym
        obtain ⟨ei, hei, heilt⟩ := lookup_buildIndexDict_mem el en henel
        exact ⟨⟨en, ei, hen, hei, by omega⟩, hrow⟩)
  unfold xml_read
  simp only [bind, hst, Option.some_bind, h1, h2, h3, h4, h5, hyst]
  rfl

/-- Witness for C5 (amended): the count-mismatch description itself loads
successfully. -/
theorem C5_no_count_validation_witness :
    (xml_read rootMismatch).isSome = true :=
  C5_no_count_validation rootMismatch 0 0 0 [] [] rfl rfl rfl rfl rfl
    (by decide) (by decide) (by decide)
    (fun tb hm => absurd hm (List.not_mem_nil tb))

/-- C9: after a successful load with pairwise-distinct nuclide names, the
loaded nuclides appear in document order, the dictionary maps the `i`-th
nuclide's name to `i`, and loading is a pure function of the description
(repeated loads agree). -/
theorem C9_index_stability (root : RootNode) (c : DepletionChain)
    (hc : xml_read root = some c)
    (hnodup : (c.nuclides.map (fun n => n.name)).Nodup) :
    c.nuclides.map (fun n => n.name)
        = root.decay_tables.map (fun n => n.name) ∧
      (∀ i nuc, c.nuclides.get? i = some nuc →
        List.lookup nuc.name c.nuclide_dict = some i) ∧
      ∀ root', root' = root → xml_read root' = xml_read root := by
  unfold xml_read at hc
  simp only [bind, Option.bind_eq_some] at hc
  obtain ⟨st, hst, nf, h1, np, h2, ne, h3, pl, h4, el, h5, yst, hyst, hpure⟩ := hc
  cases hpure
  have hyn := yield_fold_names st.nuclide_dict root.nfy.tables _ _ hyst
  have hnames := nuclide_fold_names root.decay_tables _ _ hst
  have hdoc : yst.nuclides.map (fun n => n.name)
      = root.decay_tables.map (fun n => n.name) := by
    rw [hyn, hnames.1]
    rfl
  have hnodup' : ((([] : List Nuclide).map (fun n => n.name))
      ++ root.decay_tables.map (fun n => n.name)).Nodup := by
    dsimp only at hnodup
    rw [hdoc] at hnodup
    simpa using hnodup
  have hdict := nuclide_fold_dict_nodup root.decay_tables _ _ hst rfl hnodup'
    (fun j nm h => Option.noConfusion h)
  refine ⟨hdoc, ?_, ?_⟩
  · intro i nuc hnc
    have hg : (yst.nuclides.map (fun n => n.name)).get? i = some nuc.name := by
      rw [List.get?_map, hnc]
      rfl
    rw [hyn] at hg
    exact hdict i nuc.name hg
  · intro root' h
    rw [h]

/-- Witness for C9 on a concrete two-nuclide description with distinct
names. -/
theorem C9_index_stability_witness :
    ∃ c, xml_read rootTwo = some c ∧
      c.nuclides.map (fun n => n.name)
        = rootTwo.decay_tables.map (fun n => n.name) ∧
      ∀ i nuc, c.nuclides.get? i = some nuc →
        List.lookup nuc.name c.nuclide_dict = some i := by
  refine ⟨_, rfl, ?_⟩
  have h := C9_index_stability rootTwo _ rfl (by decide)
  exact ⟨h.1, h.2.1⟩

/-- Threading a constant state through an `Option` fold whose steps leave
the state untouched agrees with the unthreaded fold. -/
theorem foldlM_option_map_pair {α β γ : Type} (f : β → α → Option β) (s₀ : γ)
    (fS : (β × γ) → α → Option (β × γ))
    (hstep : ∀ b x, fS (b, s₀) x = (f b x).map (fun b' => (b', s₀))) :
    ∀ (l : List α) (b : β),
      l.foldlM fS (b, s₀) = (l.foldlM f b).map (fun b' => (b', s₀)) := by
  intro l
  induction l with
  | nil => intro b; rfl
  | cons a t ih =>
    intro b
    rw [List.foldlM_cons, List.foldlM_cons, hstep]
    cases f b a with
    | none => rfl
    | some b' =>
      simp only [Option.map_some, bind, Option.some_bind]
      exact ih b'

/-- C10: `form_matrix` never mutates its inputs — running the assembly with
the heap threaded explicitly returns the chain and rate set exactly as they
were passed in, alongside the same matrix the pure function computes; all
state written during assembly is the local matrix accumulator. -/
theorem C10_no_input_mutation (c : DepletionChain) (rates : ReactionRates) :
    form_matrixS (c, rates)
        = (form_matrix c rates).map (fun M => (M, (c, rates))) ∧
      ∀ M s', form_matrixS (c, rates) = some (M, s') →
        s' = (c, rates) ∧ form_matrix c rates = some M := by
  have key : form_matrixS (c, rates)
      = (form_matrix c rates).map (fun M => (M, (c, rates))) := by
    unfold form_matrixS form_matrix
    refine foldlM_option_map_pair _ (c, rates) _ ?_ _ _
    intro b i
    cases hn : c.nuclides.get? i with
    | none => simp [bind, hn]
    | some nuc =>
      cases hd : decayStep c i nuc b with
      | none => simp [bind, hn, hd]
      | some m₁ =>
        cases hr : reactionStep c rates i nuc m₁ with
        | none => simp [bind, hn, hd, hr]
        | some m₂ => simp [bind, hn, hd, hr]
  refine ⟨key, ?_⟩
  intro M s' h
  rw [key] at h
  cases hF : form_matrix c rates with
  | none => rw [hF] at h; cases h
  | some M₀ =>
    rw [hF] at h
    simp only [Option.map_some', Option.some.injEq, Prod.mk.injEq] at h
    exact ⟨h.2.symm, congrArg some h.1⟩

/-- Witness for C10 at the two-nuclide scenario input. -/
theorem C10_no_input_mutation_witness :
    form_matrixS (chainAB, ratesAB)
      = (form_matrix chainAB ratesAB).map (fun M => (M, (chainAB, ratesAB))) :=
  (C10_no_input_mutation chainAB ratesAB).1

/-- C8: assembling any list of per-region rate sets through the parallel
wrapper `matrix_wrapper (chain, rates_r)` yields, slot for slot, the same
matrices as calling `form_matrix` directly on each region in order. -/
theorem C8_parallel_equivalence (c : DepletionChain)
    (rs : List ReactionRates) :
    rs.map (fun r => matrix_wrapper (c, r)) = rs.map (fun r => form_matrix c r) := by
  simp [matrix_wrapper]

/-- C4 (amended): if some nuclide's supplied rate sequence is SHORTER than
its declared reaction-path count, assembly always fails — indexing past the
end of the rate sequence raises, and no matrix is returned. -/
theorem C4_short_rate_sequence_fails (c : DepletionChain)
    (rates : ReactionRates) (i : Nat) (nuc : Nuclide) (lst : List ℚ)
    (hi : i < c.n_nuclides) (hnuc : c.nuclides.get? i = some nuc)
    (hlst : List.lookup nuc.name rates.rate = some lst)
    (hlen : lst.length < nuc.n_reaction_paths) :
    form_matrix c rates = none := by
  cases hM : form_matrix c rates with
  | none => rfl
  | some M =>
    exfalso
    obtain ⟨m₁, m₂, hstep⟩ := foldlM_option_mem_step _ (List.range c.n_nuclides)
      _ _ hM i (List.mem_range.mpr hi)
    simp only [bind, Option.bind_eq_some, hnuc, Option.some.injEq] at hstep
    obtain ⟨nuc', hnuc', m₃, hdecay, hreact⟩ := hstep
    subst hnuc'
    unfold reactionStep at hreact
    obtain ⟨b₁, b₂, hbody⟩ := foldlM_option_mem_step _ (List.range nuc.n_reaction_paths)
      _ _ hreact lst.length (List.mem_range.mpr hlen)
    simp only [bind, Option.bind_eq_some, hlst, Option.some.injEq] at hbody
    obtain ⟨lst', hlst', rj, hrj, _⟩ := hbody
    subst hlst'
    rw [List.get?_eq_none.mpr (le_refl lst.length)] at hrj
    cases hrj

/-- Witness for C4 (amended): B declares one reaction path but is supplied
an empty rate sequence; assembly returns no matrix. -/
theorem C4_short_rate_sequence_fails_witness :
    form_matrix chainAB { rate := [("A", []), ("B", [])] } = none :=
  C4_short_rate_sequence_fails chainAB { rate := [("A", []), ("B", [])] }
    1 nucB [] (by decide) rfl rfl (by decide)

/-- C6 counterexample: for a stable nuclide with no reaction paths the
diagonal entry is 0, which is not negative. -/
theorem C6_counterexample :
    ∃ M, form_matrix chainS { rate := [] } = some M ∧
      M 0 0 = 0 ∧ ¬(M 0 0 < 0) := by
  refine ⟨_, rfl, ?_⟩
  simp [form_matrix, decayStep, reactionStep, dokAdd, DOK.add, DOK.zero,
    List.range, List.range.loop, List.foldlM, List.lookup, nucS, chainS]

/-- Witness for C6 (amended) at the two-nuclide scenario: B's diagonal entry
is `-(0 + 0.01) = -0.01 < 0`. -/
theorem C6_diagonal_amended_witness :
    ∃ M, form_matrix chainAB ratesAB = some M ∧
      M 1 1 = -(totalLoss nucB [1/100]) ∧ M 1 1 < 0 := by
  have hds : ∀ t ∈ nucB.decay_target, t ≠ "Nothing" →
      List.lookup t chainAB.nuclide_dict ≠ some 1 := by
    intro t ht
    simp [nucB] at ht
  have hrs : ∀ tgt ∈ nucB.reaction_target, ∀ s, tgt = RTarget.str s →
      List.lookup s chainAB.nuclide_dict ≠ some 1 := by
    intro tgt htgt s hs hlook
    simp only [nucB, List.mem_singleton] at htgt
    subst htgt
    cases hs
    simp [List.lookup, chainAB] at hlook
  have hfs : ∀ nm ∈ chainAB.yields.name,
      List.lookup nm chainAB.nuclide_dict ≠ some 1 := by
    intro nm hnm
    simp [chainAB] at hnm
  have h := C6_diagonal_amended chainAB ratesAB _ 1 nucB [1/100] rfl
    (by decide) rfl rfl hds hrs hfs
  refine ⟨_, rfl, h.1, h.2 ?_⟩
  unfold totalLoss
  norm_num [nucB, Finset.sum_range_succ]

/-- C4 counterexample: a rate sequence LONGER than the declared
reaction-path count does not fail assembly — the extra entries are silently
ignored and a matrix is returned, refuting "whether too short or too long
... always fails". -/
theorem C4_counterexample :
    (ratesC.rate = [("C", [1/100, 5])] ∧
      nucC.n_reaction_paths = 1) ∧
    ∃ M, form_matrix chainC ratesC = some M ∧ M 0 0 = -(1/100 : ℝ) := by
  refine ⟨⟨rfl, rfl⟩, _, rfl, ?_⟩
  simp [form_matrix, decayStep, reactionStep, dokAdd, DOK.add, DOK.zero,
    List.range, List.range.loop, List.foldlM, List.lookup, nucC, chainC,
    ratesC, RTarget.isNothing]

end OpenDeplete
